import Mathlib

/-!
Verification of the termchat streaming conversation session engine.

The definitions below are a shallow embedding of the TypeScript sources:
`src/text-wrapper.ts` (the line reflow engine), `src/chat.ts` (the
conversation session), `src/index.ts` (the readline turn coordinator) and
`src/commands.ts` (command layer callers).  JavaScript strings are modelled
as `List Char`, the `Map<number, V>` of message metadata as an association
list, and the asynchronous provider call as an explicit outcome value.
-/

/-- State of `TextWrapper` from `src/text-wrapper.ts`: the fields
`linePosition`, `maxWidth`, `wordBuffer` and `lineBuffer`. -/
structure WrapState where
  linePosition : Nat
  maxWidth : Nat
  wordBuffer : List Char
  lineBuffer : List Char
deriving DecidableEq

/-- The `TextWrapper` constructor: `maxWidth = Math.max(40, terminalWidth -
rightMargin)` with `rightMargin = 6`, and `linePosition = initialPosition`. -/
def mkWrapper (terminalWidth : Nat) (initialPosition : Nat) : WrapState :=
  ⟨initialPosition, max 40 (terminalWidth - 6), [], []⟩

/-- One iteration of the character loop of `TextWrapper.wrapChunk`
(lines 27-66 of `src/text-wrapper.ts`).  The accumulator carries the wrapper
state and the `result` string built so far.  On a newline the source appends
`flushWord() + flushLine() + '\n'` (pending word first, then pending line);
on a space it flushes the word into the line, wrapping first when the word
does not fit a non-empty line, and then appends the space when it fits;
any other character is buffered into the word. -/
def wrapChar (acc : WrapState × List Char) (c : Char) : WrapState × List Char :=
  let s := acc.1
  let out := acc.2
  if c = '\n' then
    (⟨0, s.maxWidth, [], []⟩, out ++ s.wordBuffer ++ s.lineBuffer ++ ['\n'])
  else if c = ' ' then
    let word := s.wordBuffer
    let wl := word.length
    let step1 : WrapState × List Char :=
      if s.maxWidth < s.linePosition + wl ∧ 0 < s.linePosition then
        (⟨wl, s.maxWidth, [], word⟩, out ++ s.lineBuffer ++ ['\n'])
      else
        (⟨s.linePosition + wl, s.maxWidth, [], s.lineBuffer ++ word⟩, out)
    if step1.1.linePosition + 1 ≤ step1.1.maxWidth then
      (⟨step1.1.linePosition + 1, step1.1.maxWidth, step1.1.wordBuffer,
        step1.1.lineBuffer ++ [' ']⟩, step1.2)
    else step1
  else
    (⟨s.linePosition, s.maxWidth, s.wordBuffer ++ [c], s.lineBuffer⟩, out)

/-- The first half of the end-of-chunk logic of `TextWrapper.wrapChunk`
(lines 68-81): if the buffered word alone exceeds `maxWidth` it is emitted
verbatim; otherwise, if it would overflow a non-empty line, the pending line
is emitted with a newline. -/
def wrapEndWord (acc : WrapState × List Char) : WrapState × List Char :=
  let s := acc.1
  let out := acc.2
  if s.wordBuffer.isEmpty then (s, out)
  else if s.maxWidth < s.wordBuffer.length then
    (⟨s.linePosition + s.wordBuffer.length, s.maxWidth, [], s.lineBuffer⟩,
     out ++ s.wordBuffer)
  else if s.maxWidth < s.linePosition + s.wordBuffer.length ∧ 0 < s.linePosition then
    (⟨0, s.maxWidth, s.wordBuffer, []⟩, out ++ s.lineBuffer ++ ['\n'])
  else (s, out)

/-- The end-of-chunk logic of `TextWrapper.wrapChunk` (lines 68-88): the
word step above, then any remaining `lineBuffer` is appended to the result
(without a newline) and cleared. -/
def wrapEnd (acc : WrapState × List Char) : WrapState × List Char :=
  let step1 := wrapEndWord acc
  if step1.1.lineBuffer.isEmpty then step1
  else (⟨step1.1.linePosition, step1.1.maxWidth, step1.1.wordBuffer, []⟩,
        step1.2 ++ step1.1.lineBuffer)

/-- `TextWrapper.wrapChunk`: run the character loop over the chunk and then
the end-of-chunk logic; returns the new state and the returned string. -/
def TextWrapper.wrapChunk (s : WrapState) (chunk : List Char) : WrapState × List Char :=
  wrapEnd (chunk.foldl wrapChar (s, []))

/-- `TextWrapper.flush` (lines 95-99): returns `flushWord() + flushLine()`
(pending word first, then pending line) and clears both buffers. -/
def TextWrapper.flush (s : WrapState) : WrapState × List Char :=
  (⟨s.linePosition, s.maxWidth, [], []⟩, s.wordBuffer ++ s.lineBuffer)

/-- Feeding a sequence of fragments through `wrapChunk`, concatenating the
returned strings, as the streaming callback in `src/index.ts` does. -/
def feedAll (s : WrapState) : List (List Char) → WrapState × List Char
  | [] => (s, [])
  | f :: fs =>
      let r := TextWrapper.wrapChunk s f
      let rest := feedAll r.1 fs
      (rest.1, r.2 ++ rest.2)

/-- Total text produced by a fresh wrapper of the given terminal width on a
fragment sequence: all `wrapChunk` returns followed by the `flush()` return. -/
def emittedAll (w : Nat) (frags : List (List Char)) : List Char :=
  let r := feedAll (mkWrapper w 0) frags
  r.2 ++ (TextWrapper.flush r.1).2

/-- Splitting a character stream into completed lines (before each newline)
and the trailing current line, by a left fold. -/
def lineStep (acc : List (List Char) × List Char) (c : Char) :
    List (List Char) × List Char :=
  if c = '\n' then (acc.1 ++ [acc.2], []) else (acc.1, acc.2 ++ [c])

/-- Completed lines and current partial line of a character stream. -/
def lineSplit (cs : List Char) : List (List Char) × List Char :=
  cs.foldl lineStep ([], [])

/-- All display lines of a character stream: the completed lines followed by
the trailing partial line. -/
def linesOf (cs : List Char) : List (List Char) :=
  (lineSplit cs).1 ++ [(lineSplit cs).2]

/-- Bounded-run predicate: starting with a current run of `r` pending word
characters, every maximal run of non-space characters in the stream stays
within `m` characters. -/
def runsOkB (m : Nat) : List Char → Nat → Bool
  | [], _ => true
  | c :: cs, r =>
      if c = ' ' then runsOkB m cs 0
      else decide (r + 1 ≤ m) && runsOkB m cs (r + 1)

/-- The length of the pending non-space run after consuming a stream,
starting from a run of length `r`. -/
def runCtr : List Char → Nat → Nat
  | [], r => r
  | c :: cs, r => if c = ' ' then runCtr cs 0 else runCtr cs (r + 1)

/-- Message roles of `src/chat.ts`. -/
inductive Role
  | user
  | assistant
deriving DecidableEq

/-- An entry of `ChatManager.conversationHistory`. -/
structure Msg where
  role : Role
  content : List Char
deriving DecidableEq

/-- A value of the `messageMetadata` map: a timestamp (modelled as `Nat`)
and an optional token count. -/
structure Meta where
  timestamp : Nat
  tokenCount : Option Nat
deriving DecidableEq

/-- `Map.delete`: remove the binding for `k`. -/
def mapDelete (mm : List (Nat × Meta)) (k : Nat) : List (Nat × Meta) :=
  mm.filter (fun p => p.1 ≠ k)

/-- `Map.set`: bind `k` to `v`, replacing any previous binding. -/
def mapSet (mm : List (Nat × Meta)) (k : Nat) (v : Meta) : List (Nat × Meta) :=
  mapDelete mm k ++ [(k, v)]

/-- `Map.get`: the value bound to `k`, if any. -/
def mapGet (mm : List (Nat × Meta)) (k : Nat) : Option Meta :=
  (mm.find? (fun p => p.1 = k)).map Prod.snd

/-- State owned by `ChatManager` in `src/chat.ts`: `conversationHistory`
and `messageMetadata`. -/
structure ChatState where
  conversationHistory : List Msg
  messageMetadata : List (Nat × Meta)
deriving DecidableEq

/-- `ChatManager.sendMessage` (lines 34-80 of `src/chat.ts`).  The provider
call is modelled by its outcome: either the full assistant response with the
final streamed token count, or a thrown error message.  The user message is
pushed (write-ahead) with its metadata; on success the assistant message is
pushed with its metadata; on failure the source pops the user message,
deletes its metadata entry, and rethrows the wrapped error. -/
def ChatManager.sendMessage (st : ChatState) (userMessage : List Char) (tsUser tsAssistant : Nat)
    (outcome : Except (List Char) (List Char × Nat)) :
    Except (List Char) Unit × ChatState :=
  let userMessageIndex := st.conversationHistory.length
  let hist1 := st.conversationHistory ++ [⟨Role.user, userMessage⟩]
  let meta1 := mapSet st.messageMetadata userMessageIndex ⟨tsUser, none⟩
  match outcome with
  | .ok (fullResponse, tokenCount) =>
      let assistantMessageIndex := hist1.length
      (.ok (), ⟨hist1 ++ [⟨Role.assistant, fullResponse⟩],
                mapSet meta1 assistantMessageIndex ⟨tsAssistant, some tokenCount⟩⟩)
  | .error e =>
      (.error ("Error: ".toList ++ e), ⟨hist1.dropLast, mapDelete meta1 userMessageIndex⟩)

/-- An element of the `ChatManager.getHistory()` snapshot. -/
structure HistEntry where
  role : Role
  content : List Char
  timestamp : Option Nat
deriving DecidableEq

/-- The indexed map underlying `getHistory()`. -/
def getHistoryAux (mm : List (Nat × Meta)) : List Msg → Nat → List HistEntry
  | [], _ => []
  | msg :: rest, i =>
      ⟨msg.role, msg.content, (mapGet mm i).map Meta.timestamp⟩ ::
        getHistoryAux mm rest (i + 1)

/-- `ChatManager.getHistory()` (lines 82-91): each history entry paired with
the timestamp of its per-index metadata. -/
def ChatManager.getHistory (st : ChatState) : List HistEntry :=
  getHistoryAux st.messageMetadata st.conversationHistory 0

/-- `ChatManager.clearHistory()` (lines 105-108): empties the message
sequence and the metadata map. -/
def ChatManager.clearHistory (_ : ChatState) : ChatState := ⟨[], []⟩

/-- `ChatManager.getMessageCount()`. -/
def ChatManager.getMessageCount (st : ChatState) : Nat := st.conversationHistory.length

/-- Whitespace as removed by `String.prototype.trim`. -/
def isJsWs (c : Char) : Bool := c = ' ' ∨ c = '\n' ∨ c = '\t' ∨ c = '\r'

/-- `line.trim()`: strip whitespace from both ends. -/
def jsTrim (cs : List Char) : List Char :=
  ((cs.dropWhile isJsWs).reverse.dropWhile isJsWs).reverse

/-- Observable actions the readline `line` handler can initiate. -/
inductive Effect
  | executeCommand (cmd : List Char)
  | sendMessage (text : List Char)
deriving DecidableEq

/-- The mutable flag of the turn coordinator in `src/index.ts`
(`isProcessing`, line 109). -/
structure UIState where
  isProcessing : Bool
deriving DecidableEq

/-- The `rl.on('line')` handler of `src/index.ts` (lines 114-165), up to the
dispatch decision: trim the input; while `isProcessing` the input is dropped
with no effect; empty input is dropped; an input starting with `/` is
dispatched to the command handler; otherwise `isProcessing` is set and
`sendMessage` is started on the trimmed input. -/
def handleLine (st : UIState) (line : List Char) : UIState × List Effect :=
  let input := jsTrim line
  if st.isProcessing then (st, [])
  else if input.isEmpty then (st, [])
  else if input.head? = some '/' then (st, [Effect.executeCommand input])
  else (⟨true⟩, [Effect.sendMessage input])

/-- The assistant text actually written to the terminal during a successful
turn of `src/index.ts` (lines 204-234): a `TextWrapper` is created with
initial position 5, every stream chunk goes through `wrapChunk` and its
return is written; after the stream completes the handler re-enables input
without calling `flush()`. -/
def displayedOnSuccess (w : Nat) (chunks : List (List Char)) : List Char :=
  (feedAll (mkWrapper w 5) chunks).2

/-- Modelled from the spec: the `UsageTotals` record of §3.  The
usage-tracking `ChatManager` (with `getSessionCost` and `getCostBreakdown`)
is invoked from `src/commands.ts` but its implementation is not present
under `src/`; per the spec it holds running sums of input and output
tokens. -/
structure UsageTotals where
  inputTokens : Nat
  outputTokens : Nat
deriving DecidableEq

/-- Componentwise order on usage totals. -/
def UsageTotals.le (a b : UsageTotals) : Prop :=
  a.inputTokens ≤ b.inputTokens ∧ a.outputTokens ≤ b.outputTokens

/-- Per-model pricing from `src/types.ts` (`ModelPricing`): cost per one
million input and output tokens, in price units. -/
structure Pricing where
  inputTokensPer1M : Nat
  outputTokensPer1M : Nat
deriving DecidableEq

/-- Modelled from the spec: the conversation session state including
`UsageTotals` (§3, §4.2), which the session mutates only after a turn
completes successfully. -/
structure SessionState where
  chat : ChatState
  usage : UsageTotals
deriving DecidableEq

/-- Modelled from the spec: `sendMessage` at the session level (§4.2).  On
successful stream completion the returned usage is added to `UsageTotals`;
on any failure the rollback of `src/chat.ts` runs and the totals are left
unchanged. -/
def Session.sendMessage (st : SessionState) (userMessage : List Char)
    (tsUser tsAssistant : Nat)
    (outcome : Except (List Char) (List Char × Nat × UsageTotals)) :
    Except (List Char) Unit × SessionState :=
  match outcome with
  | .ok (resp, tc, du) =>
      let r := ChatManager.sendMessage st.chat userMessage tsUser tsAssistant (.ok (resp, tc))
      (r.1, ⟨r.2, ⟨st.usage.inputTokens + du.inputTokens,
                   st.usage.outputTokens + du.outputTokens⟩⟩)
  | .error e =>
      let r := ChatManager.sendMessage st.chat userMessage tsUser tsAssistant (.error e)
      (r.1, ⟨r.2, st.usage⟩)

/-- Modelled from the spec: `clearHistory()` at the session level (§4.2)
empties the message sequence and zeroes `UsageTotals` in one atomic step. -/
def Session.clearHistory (st : SessionState) : SessionState :=
  ⟨ChatManager.clearHistory st.chat, ⟨0, 0⟩⟩

/-- Modelled from the spec: the derived cost of `costBreakdown` (§4.2), in
price units per one million tokens; absent pricing yields `none`
(unavailable), never zero. -/
def derivedCost (u : UsageTotals) (p : Option Pricing) : Option Nat :=
  p.map (fun pr => u.inputTokens * pr.inputTokensPer1M +
                   u.outputTokens * pr.outputTokensPer1M)

/-- Modelled from the spec: the per-pricing cost value of `costBreakdown`
(§4.2), in price units per one million tokens. -/
def derivedCostVal (u : UsageTotals) (pr : Pricing) : Nat :=
  u.inputTokens * pr.inputTokensPer1M + u.outputTokens * pr.outputTokensPer1M

/-- Total output of one chunk-plus-flush continuation: run the remaining
characters of the single chunk, apply the end-of-chunk step, then flush. -/
def runTotalA (p : WrapState × List Char) (cs : List Char) : List Char :=
  let q := wrapEnd (cs.foldl wrapChar p)
  q.2 ++ (TextWrapper.flush q.1).2

/-- Accumulated state and output after running a list of fragments, each
through the character loop and the end-of-chunk step. -/
def runPairs (p : WrapState × List Char) : List (List Char) → WrapState × List Char
  | [] => p
  | f :: fs => runPairs (wrapEnd (f.foldl wrapChar p)) fs

/-- Total output of a fragmented run followed by flush. -/
def runTotalB (p : WrapState × List Char) (frags : List (List Char)) : List Char :=
  let q := runPairs p frags
  q.2 ++ (TextWrapper.flush q.1).2

/-- Relation between a mid-chunk single run (`pA`) and a fragmented run
(`pB`) on the same characters: either the two runs agree on output combined
with the pending line and on the column, or the fragmented run has already
performed, at a fragment boundary, the wrap that the single run will perform
at the next space. -/
def RefragCase (m : Nat) (pA pB : WrapState × List Char) : Prop :=
  (pB.2 ++ pB.1.lineBuffer = pA.2 ++ pA.1.lineBuffer ∧
   pB.1.linePosition = pA.1.linePosition) ∨
  (pA.1.wordBuffer ≠ [] ∧ 0 < pA.1.linePosition ∧
   m < pA.1.linePosition + pA.1.wordBuffer.length ∧
   pB.2 = pA.2 ++ pA.1.lineBuffer ++ ['\n'] ∧
   pB.1.lineBuffer = [] ∧ pB.1.linePosition = 0)

/-- Full refragmentation invariant: widths agree, word buffers agree and
stay within the width, and the two runs are related by `RefragCase`. -/
def RefragInv (m : Nat) (pA pB : WrapState × List Char) : Prop :=
  pA.1.maxWidth = m ∧ pB.1.maxWidth = m ∧
  pB.1.wordBuffer = pA.1.wordBuffer ∧
  pA.1.wordBuffer.length ≤ m ∧ RefragCase m pA pB

/-- Width-bound invariant of a run: the completed lines of the output
combined with the pending line are all within the width, the current line
length is exactly `linePosition` and within the width, and the pending word
is a newline-free word within the width. -/
def WidthInv (m : Nat) (p : WrapState × List Char) : Prop :=
  p.1.maxWidth = m ∧
  (∀ l ∈ (lineSplit (p.2 ++ p.1.lineBuffer)).1, l.length ≤ m) ∧
  (lineSplit (p.2 ++ p.1.lineBuffer)).2.length = p.1.linePosition ∧
  p.1.linePosition ≤ m ∧
  p.1.wordBuffer.length ≤ m ∧
  '\n' ∉ p.1.wordBuffer

lemma mapGet_cons (p : Nat × Meta) (t : List (Nat × Meta)) (i : Nat) :
    mapGet (p :: t) i = if p.1 = i then some p.2 else mapGet t i := by
  by_cases h : p.1 = i
  · simp [mapGet, List.find?_cons_of_pos, h]
  · simp [mapGet, List.find?_cons_of_neg, h]

lemma mapDelete_cons (p : Nat × Meta) (t : List (Nat × Meta)) (k : Nat) :
    mapDelete (p :: t) k
      = if p.1 = k then mapDelete t k else p :: mapDelete t k := by
  by_cases h : p.1 = k <;> simp [mapDelete, List.filter_cons, h]

lemma mapGet_delete_ne (mm : List (Nat × Meta)) (k i : Nat) (h : i ≠ k) :
    mapGet (mapDelete mm k) i = mapGet mm i := by
  induction mm with
  | nil => rfl
  | cons p t ih =>
      by_cases hp : p.1 = k
      · have hpi : ¬ (p.1 = i) := fun hh => h (by rw [← hh, hp])
        rw [mapDelete_cons, if_pos hp, ih, mapGet_cons, if_neg hpi]
      · rw [mapDelete_cons, if_neg hp, mapGet_cons, mapGet_cons, ih]

lemma mapDelete_set_self (mm : List (Nat × Meta)) (k : Nat) (v : Meta) :
    mapDelete (mapSet mm k v) k = mapDelete mm k := by
  simp [mapSet, mapDelete, List.filter_append, List.filter_filter]

lemma getHistoryAux_congr (mm₁ mm₂ : List (Nat × Meta)) :
    ∀ (l : List Msg) (n : Nat),
      (∀ i, n ≤ i → i < n + l.length → mapGet mm₁ i = mapGet mm₂ i) →
      getHistoryAux mm₁ l n = getHistoryAux mm₂ l n := by
  intro l
  induction l with
  | nil => intro n _; rfl
  | cons msg rest ih =>
      intro n h
      simp only [getHistoryAux, List.length_cons] at *
      rw [h n (le_refl n) (by omega),
          ih (n + 1) (fun i h1 h2 => h i (by omega) (by omega))]

/-- C1: when the provider call fails (backend error or cancellation),
`ChatManager.sendMessage` rethrows a wrapped error, the conversation history
is exactly the pre-call list again, and `getHistory()` is unchanged: the
provisional user message and its metadata entry are rolled back. -/
theorem sendMessage_rollback_on_error (st : ChatState) (u e : List Char)
    (tsU tsA : Nat) :
    (ChatManager.sendMessage st u tsU tsA (.error e)).1
        = .error ("Error: ".toList ++ e) ∧
    (ChatManager.sendMessage st u tsU tsA (.error e)).2.conversationHistory
        = st.conversationHistory ∧
    ChatManager.getHistory (ChatManager.sendMessage st u tsU tsA (.error e)).2
        = ChatManager.getHistory st := by
  have hst : (ChatManager.sendMessage st u tsU tsA (.error e)).2
      = ⟨st.conversationHistory,
         mapDelete st.messageMetadata st.conversationHistory.length⟩ := by
    simp [ChatManager.sendMessage, mapDelete_set_self, List.dropLast_concat]
  refine ⟨rfl, by rw [hst], ?_⟩
  rw [hst]
  simp only [ChatManager.getHistory]
  exact getHistoryAux_congr _ _ st.conversationHistory 0
    (fun i _ h2 => mapGet_delete_ne _ _ _ (by omega))

/-- C3: when the provider call succeeds, `ChatManager.sendMessage` returns
normally and the history is the prior history extended by exactly the user
message immediately followed by the assistant message, all earlier messages
unchanged and in order. -/
theorem sendMessage_success_pairing (st : ChatState) (u resp : List Char)
    (tc tsU tsA : Nat) :
    (ChatManager.sendMessage st u tsU tsA (.ok (resp, tc))).1 = .ok () ∧
    (ChatManager.sendMessage st u tsU tsA (.ok (resp, tc))).2.conversationHistory
        = st.conversationHistory ++ [⟨Role.user, u⟩, ⟨Role.assistant, resp⟩] := by
  refine ⟨rfl, ?_⟩
  simp [ChatManager.sendMessage]

lemma wrapEnd_eq (p : WrapState × List Char) :
    wrapEnd p = (⟨(wrapEndWord p).1.linePosition, (wrapEndWord p).1.maxWidth,
                  (wrapEndWord p).1.wordBuffer, []⟩,
                 (wrapEndWord p).2 ++ (wrapEndWord p).1.lineBuffer) := by
  unfold wrapEnd
  generalize wrapEndWord p = q
  obtain ⟨⟨a, b, c, d⟩, o⟩ := q
  by_cases h : (d : List Char).isEmpty
  · rw [List.isEmpty_iff] at h
    subst h
    simp
  · simp [h]

/-- C10: after every `wrapChunk` call the internal line buffer is empty:
only the pending word buffer (and the numeric column position) survives a
fragment boundary. -/
theorem wrapChunk_lineBuffer_empty (s : WrapState) (chunk : List Char) :
    (TextWrapper.wrapChunk s chunk).1.lineBuffer = [] := by
  unfold TextWrapper.wrapChunk
  rw [wrapEnd_eq]

/-- C9: an input line arriving while a turn is in flight (`isProcessing`)
is discarded by the handler: no command is executed, no `sendMessage` is
started, and the coordinator state is unchanged (hence the history is
untouched); once the coordinator is idle again, a non-empty non-command
line starts `sendMessage` on the trimmed input as usual. -/
theorem handleLine_discards_while_processing (st : UIState) (line : List Char) :
    (st.isProcessing = true → handleLine st line = (st, [])) ∧
    (st.isProcessing = false → (jsTrim line).isEmpty = false →
      (jsTrim line).head? ≠ some '/' →
      handleLine st line = (⟨true⟩, [Effect.sendMessage (jsTrim line)])) := by
  constructor
  · intro h; simp [handleLine, h]
  · intro h1 h2 h3; simp [handleLine, h1, h2, h3]

/-- Witness instantiating the hypotheses of the C9 theorem at concrete
inputs: a busy coordinator drops the line; an idle one starts the turn. -/
theorem handleLine_discards_while_processing_witness :
    handleLine ⟨true⟩ "hello".toList = (⟨true⟩, []) ∧
    handleLine ⟨false⟩ "hello".toList
      = (⟨true⟩, [Effect.sendMessage "hello".toList]) := by
  constructor
  · exact (handleLine_discards_while_processing ⟨true⟩ "hello".toList).1 rfl
  · exact (handleLine_discards_while_processing ⟨false⟩ "hello".toList).2
      rfl (by decide) (by decide)

/-- C6: usage totals never decrease on a successful turn and are unchanged
on a failed turn; the derived cost is monotone with the totals and absent
pricing reports unavailable (`none`), not zero; `Session.clearHistory`
produces, in one atomic step, a state whose history is empty and whose
totals are exactly zero. -/
theorem usage_monotone_and_clear (st : SessionState) (u resp : List Char)
    (tc tsU tsA : Nat) (du : UsageTotals) (e : List Char) (p : Pricing)
    (a b : UsageTotals) :
    UsageTotals.le st.usage
      (Session.sendMessage st u tsU tsA (.ok (resp, tc, du))).2.usage ∧
    (Session.sendMessage st u tsU tsA (.error e)).2.usage = st.usage ∧
    (UsageTotals.le a b → derivedCostVal a p ≤ derivedCostVal b p) ∧
    derivedCost a none = none ∧
    (Session.clearHistory st).chat.conversationHistory = [] ∧
    (Session.clearHistory st).usage = ⟨0, 0⟩ := by
  refine ⟨⟨by simp [Session.sendMessage], by simp [Session.sendMessage]⟩,
          rfl, ?_, rfl, rfl, rfl⟩
  rintro ⟨h1, h2⟩
  exact Nat.add_le_add (Nat.mul_le_mul_right _ h1) (Nat.mul_le_mul_right _ h2)

/-- Witness instantiating the hypotheses of the C6 theorem: monotone totals
after a concrete successful turn and cost monotonicity at concrete totals
and pricing. -/
theorem usage_monotone_and_clear_witness :
    UsageTotals.le (⟨0, 0⟩ : UsageTotals)
      (Session.sendMessage ⟨⟨[], []⟩, ⟨0, 0⟩⟩ "hi".toList 0 1
        (.ok ("ok".toList, 1, ⟨3, 4⟩))).2.usage ∧
    derivedCostVal ⟨2, 3⟩ ⟨2, 3⟩ ≤ derivedCostVal ⟨3, 5⟩ ⟨2, 3⟩ := by
  have h := usage_monotone_and_clear (⟨⟨[], []⟩, ⟨0, 0⟩⟩ : SessionState)
      "hi".toList "ok".toList 1 0 1 ⟨3, 4⟩ [] (⟨2, 3⟩ : Pricing) ⟨2, 3⟩ ⟨3, 5⟩
  exact ⟨h.1, h.2.2.1 ⟨by decide, by decide⟩⟩

/-- C7: evaluation of `wrapChunk` at the failing input.  On the newline in
`"ab cd\n"` the source emits `flushWord() + flushLine()`, the pending word
before the pending line, producing `"cdab \n"` instead of the in-order
`"ab cd\n"`; `flush()` concatenates the buffers in the same swapped order. -/
theorem wrapChunk_newline_order_bug :
    (TextWrapper.wrapChunk (mkWrapper 80 0) ("ab cd\n".toList)).2
        = "cdab \n".toList ∧
    (TextWrapper.wrapChunk (mkWrapper 80 0) ("ab cd\n".toList)).2
        ≠ "ab cd\n".toList ∧
    (TextWrapper.flush ⟨3, 74, "cd".toList, "ab ".toList⟩).2
        = "cdab ".toList := by decide

/-- C8: evaluation of the success path of the turn handler at the failing
input.  The handler of `src/index.ts` never calls `flush()` after the stream
ends, so for a stream consisting of the single chunk `"Hello world"` the
displayed text is only `"Hello "`: the trailing word `"world"` stays in the
wrapper word buffer and is lost. -/
theorem success_path_never_flushes :
    displayedOnSuccess 80 ["Hello world".toList] = "Hello ".toList ∧
    (feedAll (mkWrapper 80 5) ["Hello world".toList]).1.wordBuffer
        = "world".toList ∧
    displayedOnSuccess 80 ["Hello world".toList] ≠ "Hello world".toList := by
  decide

/-- C2 counterexample: refragmentation changes the output.  For
`"a b\n"` the single-fragment run emits `"ba \n"` while the fragmented run
`["a ", "b\n"]` emits `"a b\n"`; and for a text ending in an unbreakable
80-character token, fragmenting before the token moves the token after the
pending line instead of before it.  Both inputs are otherwise benign. -/
theorem refragmentation_counterexample :
    emittedAll 80 ["a ".toList, "b\n".toList]
        ≠ emittedAll 80 ["a ".toList ++ "b\n".toList] ∧
    emittedAll 80 ["aaa ".toList, List.replicate 80 'c']
        ≠ emittedAll 80 ["aaa ".toList ++ List.replicate 80 'c'] := by decide

/-- C4 counterexample: a line of length 81 > maxWidth = 74 is emitted for an
input whose non-space runs all have length 40 ≤ 74; the long line contains a
space, so it is not a single unbreakable token, contradicting the claimed
sole exception. -/
theorem width_bound_counterexample :
    (List.replicate 40 'b' ++ List.replicate 40 'a' ++ [' '])
        ∈ linesOf (emittedAll 80
            [List.replicate 40 'a' ++ [' '] ++ List.replicate 40 'b' ++ ['\n']]) ∧
    (mkWrapper 80 0).maxWidth
        < (List.replicate 40 'b' ++ List.replicate 40 'a' ++ [' ']).length ∧
    ' ' ∈ (List.replicate 40 'b' ++ List.replicate 40 'a' ++ [' ']) ∧
    runsOkB (mkWrapper 80 0).maxWidth
        (List.replicate 40 'a' ++ [' '] ++ List.replicate 40 'b' ++ ['\n']) 0
        = true := by decide

/-- C5 counterexample: at terminal width 20 the wrap width clamps to
`max 40 (20 - 6) = 40`, so the three fragments do not produce the three
claimed width-20 lines. -/
theorem concrete_scenario_counterexample :
    linesOf (emittedAll 20
      ["The quick br".toList, "own fox jumps ".toList, "over the lazy dog.".toList])
      ≠ ["The quick brown fox".toList, "jumps over the lazy".toList,
         "dog.".toList] := by decide

/-- C5 amended: terminal width 80 gives `maxWidth = 74`; terminal width 20
clamps to `maxWidth = 40`, and the three fragments wrap at word boundaries
into exactly two lines: a 40-character line ending in a space and the word
`"dog."` carried by the final flush. -/
theorem concrete_scenario_actual :
    (mkWrapper 80 0).maxWidth = 74 ∧
    (mkWrapper 20 0).maxWidth = 40 ∧
    linesOf (emittedAll 20
      ["The quick br".toList, "own fox jumps ".toList, "over the lazy dog.".toList])
      = ["The quick brown fox jumps over the lazy ".toList, "dog.".toList] := by
  decide

lemma wrapChar_nl (p : WrapState × List Char) :
    wrapChar p '\n'
      = (⟨0, p.1.maxWidth, [], []⟩,
         p.2 ++ p.1.wordBuffer ++ p.1.lineBuffer ++ ['\n']) := by
  obtain ⟨⟨lp, m, wb, lb⟩, o⟩ := p
  simp [wrapChar]

lemma wrapChar_other (p : WrapState × List Char) (c : Char)
    (h1 : c ≠ '\n') (h2 : c ≠ ' ') :
    wrapChar p c
      = (⟨p.1.linePosition, p.1.maxWidth, p.1.wordBuffer ++ [c], p.1.lineBuffer⟩,
         p.2) := by
  obtain ⟨⟨lp, m, wb, lb⟩, o⟩ := p
  simp [wrapChar, h1, h2]

lemma wrapChar_space_wrap (p : WrapState × List Char)
    (h : p.1.maxWidth < p.1.linePosition + p.1.wordBuffer.length ∧
         0 < p.1.linePosition) :
    wrapChar p ' '
      = if p.1.wordBuffer.length + 1 ≤ p.1.maxWidth then
          (⟨p.1.wordBuffer.length + 1, p.1.maxWidth, [], p.1.wordBuffer ++ [' ']⟩,
           p.2 ++ p.1.lineBuffer ++ ['\n'])
        else
          (⟨p.1.wordBuffer.length, p.1.maxWidth, [], p.1.wordBuffer⟩,
           p.2 ++ p.1.lineBuffer ++ ['\n']) := by
  obtain ⟨⟨lp, m, wb, lb⟩, o⟩ := p
  dsimp only at h
  simp only [wrapChar, if_neg (by decide : ¬ (' ' = '\n')), if_pos rfl, if_pos h]
  split_ifs <;> simp_all

lemma wrapChar_space_add (p : WrapState × List Char)
    (h : ¬(p.1.maxWidth < p.1.linePosition + p.1.wordBuffer.length ∧
           0 < p.1.linePosition)) :
    wrapChar p ' '
      = if p.1.linePosition + p.1.wordBuffer.length + 1 ≤ p.1.maxWidth then
          (⟨p.1.linePosition + p.1.wordBuffer.length + 1, p.1.maxWidth, [],
            p.1.lineBuffer ++ p.1.wordBuffer ++ [' ']⟩, p.2)
        else
          (⟨p.1.linePosition + p.1.wordBuffer.length, p.1.maxWidth, [],
            p.1.lineBuffer ++ p.1.wordBuffer⟩, p.2) := by
  obtain ⟨⟨lp, m, wb, lb⟩, o⟩ := p
  dsimp only at h
  simp only [wrapChar, if_neg (by decide : ¬ (' ' = '\n')), if_pos rfl, if_neg h]
  split_ifs <;> simp_all

lemma wrapChar_maxWidth (p : WrapState × List Char) (c : Char) :
    (wrapChar p c).1.maxWidth = p.1.maxWidth := by
  obtain ⟨⟨lp, m, wb, lb⟩, o⟩ := p
  by_cases h1 : c = '\n'
  · simp [wrapChar, h1]
  · by_cases h2 : c = ' '
    · subst h2
      simp only [wrapChar, if_neg (by decide : ¬ (' ' = '\n')), if_pos rfl]
      split_ifs <;> rfl
    · simp [wrapChar, h1, h2]

lemma wrapChar_wordBuffer (p : WrapState × List Char) (c : Char) :
    (wrapChar p c).1.wordBuffer
      = if c = '\n' ∨ c = ' ' then [] else p.1.wordBuffer ++ [c] := by
  obtain ⟨⟨lp, m, wb, lb⟩, o⟩ := p
  by_cases h1 : c = '\n'
  · simp [wrapChar, h1]
  · by_cases h2 : c = ' '
    · subst h2
      rw [if_pos (Or.inr rfl)]
      simp only [wrapChar, if_neg (by decide : ¬ (' ' = '\n')), if_pos rfl]
      split_ifs <;> rfl
    · simp [wrapChar, h1, h2]

lemma wrapEndWord_nil (p : WrapState × List Char) (h : p.1.wordBuffer = []) :
    wrapEndWord p = p := by
  obtain ⟨⟨lp, m, wb, lb⟩, o⟩ := p
  dsimp only at h
  simp [wrapEndWord, h]

lemma wrapEndWord_long (p : WrapState × List Char) (h1 : p.1.wordBuffer ≠ [])
    (h2 : p.1.maxWidth < p.1.wordBuffer.length) :
    wrapEndWord p
      = (⟨p.1.linePosition + p.1.wordBuffer.length, p.1.maxWidth, [],
          p.1.lineBuffer⟩, p.2 ++ p.1.wordBuffer) := by
  obtain ⟨⟨lp, m, wb, lb⟩, o⟩ := p
  dsimp only at h1 h2
  simp [wrapEndWord, List.isEmpty_iff, h1, h2]

lemma wrapEndWord_wrap (p : WrapState × List Char) (h1 : p.1.wordBuffer ≠ [])
    (h2 : ¬ (p.1.maxWidth < p.1.wordBuffer.length))
    (h3 : p.1.maxWidth < p.1.linePosition + p.1.wordBuffer.length ∧
          0 < p.1.linePosition) :
    wrapEndWord p
      = (⟨0, p.1.maxWidth, p.1.wordBuffer, []⟩,
         p.2 ++ p.1.lineBuffer ++ ['\n']) := by
  obtain ⟨⟨lp, m, wb, lb⟩, o⟩ := p
  dsimp only at h1 h2 h3
  simp [wrapEndWord, List.isEmpty_iff, h1, h2, h3]

lemma wrapEndWord_keep (p : WrapState × List Char)
    (h2 : ¬ (p.1.maxWidth < p.1.wordBuffer.length))
    (h3 : ¬ (p.1.maxWidth < p.1.linePosition + p.1.wordBuffer.length ∧
             0 < p.1.linePosition)) :
    wrapEndWord p = p := by
  obtain ⟨⟨lp, m, wb, lb⟩, o⟩ := p
  dsimp only at h2 h3
  by_cases h1 : wb = [] <;> simp [wrapEndWord, List.isEmpty_iff, h1, h2, h3]

lemma wrapChar_mono (s : WrapState) (o : List Char) (c : Char) :
    wrapChar (s, o) c = ((wrapChar (s, []) c).1, o ++ (wrapChar (s, []) c).2) := by
  by_cases h1 : c = '\n'
  · subst h1; simp [wrapChar_nl]
  · by_cases h2 : c = ' '
    · subst h2
      by_cases h3 : s.maxWidth < s.linePosition + s.wordBuffer.length ∧
          0 < s.linePosition
      · rw [wrapChar_space_wrap (s, o) h3, wrapChar_space_wrap (s, []) h3]
        split_ifs <;> simp
      · rw [wrapChar_space_add (s, o) h3, wrapChar_space_add (s, []) h3]
        split_ifs <;> simp
    · rw [wrapChar_other (s, o) c h1 h2, wrapChar_other (s, []) c h1 h2]
      simp

lemma foldl_wrapChar_mono : ∀ (cs : List Char) (s : WrapState) (o : List Char),
    cs.foldl wrapChar (s, o)
      = ((cs.foldl wrapChar (s, [])).1, o ++ (cs.foldl wrapChar (s, [])).2) := by
  intro cs
  induction cs with
  | nil => intro s o; simp
  | cons c cs ih =>
      intro s o
      simp only [List.foldl_cons]
      rw [wrapChar_mono s o c]
      rcases hwc : wrapChar (s, []) c with ⟨s1, d⟩
      dsimp only
      rw [ih s1 (o ++ d), ih s1 d]
      simp [List.append_assoc]

lemma wrapEndWord_mono (s : WrapState) (o : List Char) :
    wrapEndWord (s, o) = ((wrapEndWord (s, [])).1, o ++ (wrapEndWord (s, [])).2) := by
  by_cases h1 : s.wordBuffer = []
  · rw [wrapEndWord_nil (s, o) h1, wrapEndWord_nil (s, []) h1]; simp
  · by_cases h2 : s.maxWidth < s.wordBuffer.length
    · rw [wrapEndWord_long (s, o) h1 h2, wrapEndWord_long (s, []) h1 h2]; simp
    · by_cases h3 : s.maxWidth < s.linePosition + s.wordBuffer.length ∧
          0 < s.linePosition
      · rw [wrapEndWord_wrap (s, o) h1 h2 h3, wrapEndWord_wrap (s, []) h1 h2 h3]
        simp
      · rw [wrapEndWord_keep (s, o) h2 h3, wrapEndWord_keep (s, []) h2 h3]; simp

lemma wrapEnd_mono (s : WrapState) (o : List Char) :
    wrapEnd (s, o) = ((wrapEnd (s, [])).1, o ++ (wrapEnd (s, [])).2) := by
  rw [wrapEnd_eq (s, o), wrapEnd_eq (s, []), wrapEndWord_mono s o]
  simp [List.append_assoc]

lemma wrapEnd_mono_pair (q : WrapState × List Char) (o : List Char) :
    wrapEnd (q.1, o ++ q.2) = ((wrapEnd q).1, o ++ (wrapEnd q).2) := by
  obtain ⟨s, oo⟩ := q
  rw [wrapEnd_mono s (o ++ oo), wrapEnd_mono s oo]
  simp [List.append_assoc]

lemma runsOkB_append (m : Nat) : ∀ (xs ys : List Char) (r : Nat),
    runsOkB m (xs ++ ys) r = (runsOkB m xs r && runsOkB m ys (runCtr xs r)) := by
  intro xs
  induction xs with
  | nil => intro ys r; simp [runsOkB, runCtr]
  | cons c cs ih =>
      intro ys r
      by_cases h : c = ' ' <;>
        simp [runsOkB, runCtr, h, ih, Bool.and_assoc]

lemma foldl_wordBuffer : ∀ (cs : List Char) (p : WrapState × List Char),
    '\n' ∉ cs →
    ((cs.foldl wrapChar p).1).wordBuffer.length
      = runCtr cs p.1.wordBuffer.length := by
  intro cs
  induction cs with
  | nil => intro p _; rfl
  | cons c cs ih =>
      intro p hnl
      have hc : ¬ (c = '\n') := fun he => hnl (by rw [he]; exact List.mem_cons_self _ _)
      have hcs : '\n' ∉ cs := fun hm => hnl (List.mem_cons_of_mem _ hm)
      simp only [List.foldl_cons, runCtr]
      rw [ih _ hcs, wrapChar_wordBuffer]
      by_cases hsp : c = ' '
      · simp [hsp]
      · simp [hc, hsp]

lemma wrapEnd_keeps_word (p : WrapState × List Char)
    (h : p.1.wordBuffer.length ≤ p.1.maxWidth) :
    (wrapEnd p).1.wordBuffer = p.1.wordBuffer := by
  rw [wrapEnd_eq]
  by_cases h1 : p.1.wordBuffer = []
  · rw [wrapEndWord_nil p h1]
  · have h2 : ¬ (p.1.maxWidth < p.1.wordBuffer.length) := by omega
    by_cases h3 : p.1.maxWidth < p.1.linePosition + p.1.wordBuffer.length ∧
        0 < p.1.linePosition
    · rw [wrapEndWord_wrap p h1 h2 h3]
    · rw [wrapEndWord_keep p h2 h3]

lemma feedAll_runPairs : ∀ (frags : List (List Char)) (s : WrapState) (o : List Char),
    runPairs (s, o) frags = ((feedAll s frags).1, o ++ (feedAll s frags).2) := by
  intro frags
  induction frags with
  | nil => intro s o; simp [runPairs, feedAll]
  | cons f fs ih =>
      intro s o
      simp only [runPairs, feedAll]
      rw [foldl_wrapChar_mono f s o, wrapEnd_mono_pair (f.foldl wrapChar (s, [])) o]
      have hwc : wrapEnd (f.foldl wrapChar (s, [])) = TextWrapper.wrapChunk s f := rfl
      rw [hwc]
      rcases hq : TextWrapper.wrapChunk s f with ⟨s1, d⟩
      dsimp only
      rw [ih s1 (o ++ d)]
      simp [List.append_assoc]

lemma append_ext {as bs xs ys : List Char} (h : xs ++ as = ys ++ bs)
    (z : List Char) : xs ++ (as ++ z) = ys ++ (bs ++ z) := by
  rw [← List.append_assoc, ← List.append_assoc, h]

lemma wrapChar_aligned (c : Char) (pA pB : WrapState × List Char) (hc : c ≠ '\n')
    (e1 : pB.1.linePosition = pA.1.linePosition)
    (e2 : pB.1.maxWidth = pA.1.maxWidth)
    (e3 : pB.1.wordBuffer = pA.1.wordBuffer)
    (e4 : pB.2 ++ pB.1.lineBuffer = pA.2 ++ pA.1.lineBuffer) :
    (wrapChar pB c).1.linePosition = (wrapChar pA c).1.linePosition ∧
    (wrapChar pB c).1.maxWidth = (wrapChar pA c).1.maxWidth ∧
    (wrapChar pB c).1.wordBuffer = (wrapChar pA c).1.wordBuffer ∧
    (wrapChar pB c).2 ++ (wrapChar pB c).1.lineBuffer
      = (wrapChar pA c).2 ++ (wrapChar pA c).1.lineBuffer := by
  obtain ⟨⟨lpA, mA, wbA, lbA⟩, oA⟩ := pA
  obtain ⟨⟨lpB, mB, wbB, lbB⟩, oB⟩ := pB
  dsimp only at e1 e2 e3 e4
  subst e1; subst e2; subst e3
  by_cases hsp : c = ' '
  · subst hsp
    by_cases h3 : mB < lpB + wbB.length ∧ 0 < lpB
    · rw [wrapChar_space_wrap (⟨lpB, mB, wbB, lbB⟩, oB) h3,
          wrapChar_space_wrap (⟨lpB, mB, wbB, lbA⟩, oA) h3]
      split_ifs with hfit
      · refine ⟨rfl, rfl, rfl, ?_⟩
        dsimp only
        simpa only [List.append_assoc] using append_ext e4 _
      · refine ⟨rfl, rfl, rfl, ?_⟩
        dsimp only
        simpa only [List.append_assoc] using append_ext e4 _
    · rw [wrapChar_space_add (⟨lpB, mB, wbB, lbB⟩, oB) h3,
          wrapChar_space_add (⟨lpB, mB, wbB, lbA⟩, oA) h3]
      split_ifs with hfit
      · refine ⟨rfl, rfl, rfl, ?_⟩
        dsimp only
        simpa only [List.append_assoc] using append_ext e4 _
      · refine ⟨rfl, rfl, rfl, ?_⟩
        dsimp only
        simpa only [List.append_assoc] using append_ext e4 _
  · rw [wrapChar_other (⟨lpB, mB, wbB, lbB⟩, oB) c hc hsp,
        wrapChar_other (⟨lpB, mB, wbB, lbA⟩, oA) c hc hsp]
    exact ⟨rfl, rfl, rfl, e4⟩

lemma step_inv (m : Nat) (c : Char) (pA pB : WrapState × List Char)
    (h : RefragInv m pA pB) (hc : c ≠ '\n')
    (hlen : c = ' ' ∨ pA.1.wordBuffer.length + 1 ≤ m) :
    RefragInv m (wrapChar pA c) (wrapChar pB c) := by
  obtain ⟨hmA, hmB, hwb, hwl, hcase⟩ := h
  rcases hcase with ⟨h1, h2⟩ | ⟨h1, h2, h3, h4, h5, h6⟩
  · have key := wrapChar_aligned c pA pB hc h2 (hmB.trans hmA.symm) hwb h1
    refine ⟨by rw [wrapChar_maxWidth]; exact hmA,
            by rw [wrapChar_maxWidth]; exact hmB,
            key.2.2.1, ?_, Or.inl ⟨key.2.2.2, key.1⟩⟩
    rw [wrapChar_wordBuffer]
    by_cases hnlsp : c = '\n' ∨ c = ' '
    · simp [hnlsp]
    · rw [if_neg hnlsp]
      rcases hlen with h | h
      · exact absurd (Or.inr h) hnlsp
      · simpa using h
  · obtain ⟨⟨lpA, mA, wbA, lbA⟩, oA⟩ := pA
    obtain ⟨⟨lpB, mB, wbB, lbB⟩, oB⟩ := pB
    dsimp only at hmA hmB hwb hwl h1 h2 h3 h4 h5 h6 hlen
    subst hmA; subst hmB; subst hwb; subst h4; subst h5; subst h6
    by_cases hsp : c = ' '
    · subst hsp
      rw [wrapChar_space_wrap (⟨lpA, mB, wbB, lbA⟩, oA) ⟨h3, h2⟩,
          wrapChar_space_add (⟨0, mB, wbB, []⟩, oA ++ lbA ++ ['\n']) (by simp)]
      dsimp only
      by_cases hfit : wbB.length + 1 ≤ mB
      · rw [if_pos hfit, if_pos (show 0 + wbB.length + 1 ≤ mB by omega)]
        exact ⟨rfl, rfl, by simp, by simp, Or.inl ⟨by simp, by simp⟩⟩
      · rw [if_neg hfit, if_neg (show ¬ (0 + wbB.length + 1 ≤ mB) by omega)]
        exact ⟨rfl, rfl, by simp, by simp, Or.inl ⟨by simp, by simp⟩⟩
    · rw [wrapChar_other (⟨lpA, mB, wbB, lbA⟩, oA) c hc hsp,
          wrapChar_other (⟨0, mB, wbB, []⟩, oA ++ lbA ++ ['\n']) c hc hsp]
      refine ⟨rfl, rfl, rfl, ?_, Or.inr ⟨by simp, h2, ?_, rfl, rfl, rfl⟩⟩
      · dsimp only
        simp only [List.length_append, List.length_cons, List.length_nil]
        rcases hlen with h | h
        · exact absurd h hsp
        · omega
      · dsimp only
        simp only [List.length_append, List.length_cons, List.length_nil]
        omega

lemma end_inv (m : Nat) (pA pB : WrapState × List Char)
    (h : RefragInv m pA pB) : RefragInv m pA (wrapEnd pB) := by
  obtain ⟨hmA, hmB, hwb, hwl, hcase⟩ := h
  have hnotlong : ¬ (pB.1.maxWidth < pB.1.wordBuffer.length) := by
    rw [hmB, hwb]; omega
  rcases hcase with ⟨h1, h2⟩ | ⟨h1, h2, h3, h4, h5, h6⟩
  · by_cases he : pB.1.wordBuffer = []
    · rw [wrapEnd_eq, wrapEndWord_nil pB he]
      refine ⟨hmA, hmB, hwb, hwl, Or.inl ⟨?_, h2⟩⟩
      dsimp only
      simpa using h1
    · by_cases hov : pB.1.maxWidth < pB.1.linePosition + pB.1.wordBuffer.length ∧
          0 < pB.1.linePosition
      · rw [wrapEnd_eq, wrapEndWord_wrap pB he hnotlong hov]
        refine ⟨hmA, hmB, hwb, hwl,
                Or.inr ⟨by rw [← hwb]; exact he,
                        by rw [← h2]; exact hov.2, ?_, ?_, rfl, rfl⟩⟩
        · rw [← hmB, ← h2, ← hwb]; exact hov.1
        · dsimp only
          simp only [List.append_nil, List.append_assoc]
          exact append_ext h1 _
      · rw [wrapEnd_eq, wrapEndWord_keep pB hnotlong hov]
        refine ⟨hmA, hmB, hwb, hwl, Or.inl ⟨?_, h2⟩⟩
        dsimp only
        simpa using h1
  · have hov : ¬ (pB.1.maxWidth < pB.1.linePosition + pB.1.wordBuffer.length ∧
        0 < pB.1.linePosition) := by rw [h6]; simp
    rw [wrapEnd_eq, wrapEndWord_keep pB hnotlong hov]
    refine ⟨hmA, hmB, hwb, hwl, Or.inr ⟨h1, h2, h3, ?_, rfl, h6⟩⟩
    dsimp only
    rw [h5, List.append_nil]
    exact h4

lemma final_inv (m : Nat) (pA pB : WrapState × List Char)
    (h : RefragInv m pA pB) :
    (wrapEnd pB).2 ++ (TextWrapper.flush (wrapEnd pB).1).2
      = (wrapEnd pA).2 ++ (TextWrapper.flush (wrapEnd pA).1).2 := by
  obtain ⟨hmA, hmB, hwb, hwl, hcase⟩ := h
  have hlongA : ¬ (pA.1.maxWidth < pA.1.wordBuffer.length) := by rw [hmA]; omega
  have hlongB : ¬ (pB.1.maxWidth < pB.1.wordBuffer.length) := by
    rw [hmB, hwb]; omega
  rcases hcase with ⟨h1, h2⟩ | ⟨h1, h2, h3, h4, h5, h6⟩
  · by_cases he : pA.1.wordBuffer = []
    · have heB : pB.1.wordBuffer = [] := by rw [hwb, he]
      rw [wrapEnd_eq pA, wrapEnd_eq pB, wrapEndWord_nil pA he,
          wrapEndWord_nil pB heB]
      dsimp only [TextWrapper.flush]
      simp [he, heB, h1]
    · have heB : pB.1.wordBuffer ≠ [] := by rw [hwb]; exact he
      by_cases hov : pA.1.maxWidth < pA.1.linePosition + pA.1.wordBuffer.length ∧
          0 < pA.1.linePosition
      · have hovB : pB.1.maxWidth < pB.1.linePosition + pB.1.wordBuffer.length ∧
            0 < pB.1.linePosition := by
          rw [hmB, hwb, h2]
          rw [hmA] at hov
          exact hov
        rw [wrapEnd_eq pA, wrapEnd_eq pB, wrapEndWord_wrap pA he hlongA hov,
            wrapEndWord_wrap pB heB hlongB hovB]
        dsimp only [TextWrapper.flush]
        simp only [List.append_nil, List.append_assoc, hwb]
        exact append_ext h1 _
      · have hovB : ¬ (pB.1.maxWidth < pB.1.linePosition + pB.1.wordBuffer.length ∧
            0 < pB.1.linePosition) := by
          rw [hmB, hwb, h2]
          rw [hmA] at hov
          exact hov
        rw [wrapEnd_eq pA, wrapEnd_eq pB, wrapEndWord_keep pA hlongA hov,
            wrapEndWord_keep pB hlongB hovB]
        dsimp only [TextWrapper.flush]
        simp only [List.append_nil, List.append_assoc, hwb]
        exact append_ext h1 _
  · have hovA : pA.1.maxWidth < pA.1.linePosition + pA.1.wordBuffer.length ∧
        0 < pA.1.linePosition := by rw [hmA]; exact ⟨h3, h2⟩
    have hovB : ¬ (pB.1.maxWidth < pB.1.linePosition + pB.1.wordBuffer.length ∧
        0 < pB.1.linePosition) := by rw [h6]; simp
    rw [wrapEnd_eq pA, wrapEnd_eq pB, wrapEndWord_wrap pA h1 hlongA hovA,
        wrapEndWord_keep pB hlongB hovB]
    dsimp only [TextWrapper.flush]
    simp [h4, h5, hwb, List.append_assoc]

lemma fold_inv (m : Nat) : ∀ (cs : List Char) (pA pB : WrapState × List Char),
    RefragInv m pA pB → '\n' ∉ cs →
    runsOkB m cs pA.1.wordBuffer.length = true →
    RefragInv m (cs.foldl wrapChar pA) (cs.foldl wrapChar pB) := by
  intro cs
  induction cs with
  | nil => intro pA pB h _ _; exact h
  | cons c cs ih =>
      intro pA pB h hnl hrun
      have hc : c ≠ '\n' := fun he => hnl (by rw [he]; exact List.mem_cons_self _ _)
      have hcs : '\n' ∉ cs := fun hm => hnl (List.mem_cons_of_mem _ hm)
      simp only [List.foldl_cons]
      by_cases hsp : c = ' '
      · subst hsp
        refine ih _ _ (step_inv m ' ' pA pB h hc (Or.inl rfl)) hcs ?_
        have hwb0 : (wrapChar pA ' ').1.wordBuffer = [] := by
          rw [wrapChar_wordBuffer]; simp
        rw [hwb0]
        simpa [runsOkB] using hrun
      · simp only [runsOkB, if_neg hsp, Bool.and_eq_true, decide_eq_true_eq] at hrun
        refine ih _ _ (step_inv m c pA pB h hc (Or.inr hrun.1)) hcs ?_
        have hwb1 : (wrapChar pA c).1.wordBuffer = pA.1.wordBuffer ++ [c] := by
          rw [wrapChar_wordBuffer]; simp [hc, hsp]
        rw [hwb1]
        simpa using hrun.2

lemma main_inv (m : Nat) : ∀ (frags : List (List Char)), frags ≠ [] →
    ∀ (pA pB : WrapState × List Char), RefragInv m pA pB →
    '\n' ∉ frags.flatten → runsOkB m frags.flatten pA.1.wordBuffer.length = true →
    runTotalB pB frags = runTotalA pA frags.flatten := by
  intro frags
  induction frags with
  | nil => intro h; exact absurd rfl h
  | cons f fs ih =>
      intro _ pA pB h hnl hrun
      rw [List.flatten_cons] at hnl hrun
      have hnlf : '\n' ∉ f := fun hm => hnl (List.mem_append_left _ hm)
      have hnlfs : '\n' ∉ fs.flatten := fun hm => hnl (List.mem_append_right _ hm)
      rw [runsOkB_append] at hrun
      simp only [Bool.and_eq_true] at hrun
      have hfold := fold_inv m f pA pB h hnlf hrun.1
      by_cases hfs : fs = []
      · subst hfs
        show runTotalB (wrapEnd (f.foldl wrapChar pB)) [] = runTotalA pA (f ++ [].flatten)
        simp only [runTotalB, runPairs, runTotalA, List.flatten_nil, List.append_nil]
        exact final_inv m _ _ hfold
      · have hend := end_inv m _ _ hfold
        have hctr := foldl_wordBuffer f pA hnlf
        have hres := ih hfs _ _ hend hnlfs (by rw [hctr]; exact hrun.2)
        show runTotalB (wrapEnd (f.foldl wrapChar pB)) fs = runTotalA pA (f ++ fs.flatten)
        rw [hres]
        simp [runTotalA, List.foldl_append]

/-- C2 amended: refragmentation invariance for newline-free text whose
maximal non-space runs stay within `maxWidth`: feeding any fragmentation of
the text through successive `wrapChunk` calls followed by `flush()` emits
exactly the same characters as feeding the whole text as one chunk followed
by `flush()`. -/
theorem refragmentation_invariance_restricted (w : Nat)
    (frags : List (List Char)) (hnl : '\n' ∉ frags.flatten)
    (hrun : runsOkB (mkWrapper w 0).maxWidth frags.flatten 0 = true) :
    emittedAll w frags = emittedAll w [frags.flatten] := by
  by_cases hfrags : frags = []
  · subst hfrags
    simp [emittedAll, feedAll, TextWrapper.wrapChunk, TextWrapper.flush,
          mkWrapper, wrapEnd, wrapEndWord]
  · have h0 : RefragInv (mkWrapper w 0).maxWidth (mkWrapper w 0, ([] : List Char))
        (mkWrapper w 0, []) :=
      ⟨rfl, rfl, rfl, by simp [mkWrapper], Or.inl ⟨rfl, rfl⟩⟩
    have hmain := main_inv (mkWrapper w 0).maxWidth frags hfrags
      (mkWrapper w 0, []) (mkWrapper w 0, []) h0 hnl hrun
    have hB : emittedAll w frags = runTotalB (mkWrapper w 0, []) frags := by
      simp only [emittedAll, runTotalB, feedAll_runPairs]
      simp
    have hA : emittedAll w [frags.flatten] = runTotalA (mkWrapper w 0, []) frags.flatten := by
      simp only [emittedAll, feedAll, runTotalA, TextWrapper.wrapChunk]
      simp
    rw [hB, hA, hmain]

/-- Witness instantiating the hypotheses of the amended C2 theorem:
the fragments of the C5 scenario restricted to a newline-free text. -/
theorem refragmentation_invariance_restricted_witness :
    emittedAll 80 ["ab ".toList, "cd".toList]
      = emittedAll 80 [(["ab ".toList, "cd".toList] : List (List Char)).flatten] :=
  refragmentation_invariance_restricted 80 _ (by decide) (by decide)

lemma foldl_lineStep_no_nl : ∀ (y : List Char) (acc : List (List Char) × List Char),
    '\n' ∉ y → y.foldl lineStep acc = (acc.1, acc.2 ++ y) := by
  intro y
  induction y with
  | nil => intro acc _; simp
  | cons c cs ih =>
      intro acc h
      have hc : ¬ (c = '\n') :=
        fun he => h (by rw [he]; exact List.mem_cons_self _ _)
      have hcs : '\n' ∉ cs := fun hm => h (List.mem_cons_of_mem _ hm)
      simp only [List.foldl_cons, lineStep, if_neg hc]
      rw [ih _ hcs]
      simp

lemma lineSplit_append (x y : List Char) :
    lineSplit (x ++ y) = y.foldl lineStep (lineSplit x) := by
  simp [lineSplit, List.foldl_append]

lemma lineSplit_no_nl_run (x w : List Char) (hw : '\n' ∉ w) :
    lineSplit (x ++ w) = ((lineSplit x).1, (lineSplit x).2 ++ w) := by
  rw [lineSplit_append, foldl_lineStep_no_nl w _ hw]

lemma lineSplit_newline_run (x w : List Char) (hw : '\n' ∉ w) :
    lineSplit (x ++ ('\n' :: w))
      = ((lineSplit x).1 ++ [(lineSplit x).2], w) := by
  rw [lineSplit_append]
  simp only [List.foldl_cons, lineStep, if_pos rfl]
  rw [foldl_lineStep_no_nl w _ hw]
  simp

lemma stepJ (m : Nat) (c : Char) (p : WrapState × List Char)
    (hJ : WidthInv m p) (hc : c ≠ '\n')
    (hlen : c = ' ' ∨ p.1.wordBuffer.length + 1 ≤ m) :
    WidthInv m (wrapChar p c) := by
  obtain ⟨⟨lp, mw, wb, lb⟩, o⟩ := p
  obtain ⟨hm, hcl, hcur, hlp, hwl, hwn⟩ := hJ
  dsimp only at hm hcl hcur hlp hwl hwn hlen
  subst hm
  by_cases hsp : c = ' '
  · subst hsp
    by_cases hw : mw < lp + wb.length ∧ 0 < lp
    · rw [wrapChar_space_wrap (⟨lp, mw, wb, lb⟩, o) hw]
      by_cases hfit : wb.length + 1 ≤ mw
      · rw [if_pos hfit]
        have hnn : '\n' ∉ wb ++ [' '] := by
          simp only [List.mem_append, List.mem_singleton]
          rintro (h | h)
          · exact hwn h
          · exact absurd h (by decide)
        have hre : (o ++ (lb ++ ['\n'])) ++ (wb ++ [' '])
            = (o ++ lb) ++ ('\n' :: (wb ++ [' '])) := by simp
        refine ⟨rfl, ?_, ?_, hfit, by simp, by simp⟩
        · intro l hl
          dsimp only at hl
          rw [show o ++ lb ++ ['\n'] ++ (wb ++ [' '])
              = (o ++ lb) ++ ('\n' :: (wb ++ [' '])) from by simp,
             lineSplit_newline_run _ _ hnn] at hl
          rcases List.mem_append.mp hl with h | h
          · exact hcl l h
          · have hl2 : l = (lineSplit (o ++ lb)).2 := by simpa using h
            rw [hl2, hcur]; exact hlp
        · dsimp only
          rw [show o ++ lb ++ ['\n'] ++ (wb ++ [' '])
              = (o ++ lb) ++ ('\n' :: (wb ++ [' '])) from by simp,
             lineSplit_newline_run _ _ hnn]
          simp
      · rw [if_neg hfit]
        refine ⟨rfl, ?_, ?_, hwl, by simp, by simp⟩
        · intro l hl
          dsimp only at hl
          rw [show o ++ lb ++ ['\n'] ++ wb = (o ++ lb) ++ ('\n' :: wb) from by simp,
             lineSplit_newline_run _ _ hwn] at hl
          rcases List.mem_append.mp hl with h | h
          · exact hcl l h
          · have hl2 : l = (lineSplit (o ++ lb)).2 := by simpa using h
            rw [hl2, hcur]; exact hlp
        · dsimp only
          rw [show o ++ lb ++ ['\n'] ++ wb = (o ++ lb) ++ ('\n' :: wb) from by simp,
             lineSplit_newline_run _ _ hwn]
    · have hsum : lp + wb.length ≤ mw := by
        by_cases h : mw < lp + wb.length
        · have hlp0 : ¬ 0 < lp := fun hp => hw ⟨h, hp⟩
          omega
        · omega
      rw [wrapChar_space_add (⟨lp, mw, wb, lb⟩, o) hw]
      by_cases hfit : lp + wb.length + 1 ≤ mw
      · rw [if_pos hfit]
        have hnn : '\n' ∉ wb ++ [' '] := by
          simp only [List.mem_append, List.mem_singleton]
          rintro (h | h)
          · exact hwn h
          · exact absurd h (by decide)
        refine ⟨rfl, ?_, ?_, hfit, by simp, by simp⟩
        · intro l hl
          dsimp only at hl
          rw [show o ++ (lb ++ wb ++ [' ']) = (o ++ lb) ++ (wb ++ [' '])
                from by simp,
             lineSplit_no_nl_run _ _ hnn] at hl
          exact hcl l hl
        · dsimp only
          rw [show o ++ (lb ++ wb ++ [' ']) = (o ++ lb) ++ (wb ++ [' '])
                from by simp,
             lineSplit_no_nl_run _ _ hnn]
          simp [hcur]
          omega
      · rw [if_neg hfit]
        refine ⟨rfl, ?_, ?_, hsum, by simp, by simp⟩
        · intro l hl
          dsimp only at hl
          rw [show o ++ (lb ++ wb) = (o ++ lb) ++ wb from by simp,
             lineSplit_no_nl_run _ _ hwn] at hl
          exact hcl l hl
        · dsimp only
          rw [show o ++ (lb ++ wb) = (o ++ lb) ++ wb from by simp,
             lineSplit_no_nl_run _ _ hwn]
          simp [hcur]
  · rw [wrapChar_other (⟨lp, mw, wb, lb⟩, o) c hc hsp]
    refine ⟨rfl, hcl, hcur, hlp, ?_, ?_⟩
    · dsimp only
      rcases hlen with h | h
      · exact absurd h hsp
      · simpa using h
    · dsimp only
      simp only [List.mem_append, List.mem_singleton]
      rintro (h | h)
      · exact hwn h
      · exact hc h.symm

lemma endJ (m : Nat) (p : WrapState × List Char) (hJ : WidthInv m p) :
    WidthInv m (wrapEnd p) := by
  obtain ⟨hm, hcl, hcur, hlp, hwl, hwn⟩ := hJ
  have hnotlong : ¬ (p.1.maxWidth < p.1.wordBuffer.length) := by rw [hm]; omega
  by_cases he : p.1.wordBuffer = []
  · rw [wrapEnd_eq, wrapEndWord_nil p he]
    refine ⟨hm, ?_, ?_, hlp, hwl, hwn⟩
    · intro l hl
      dsimp only at hl
      rw [List.append_nil] at hl
      exact hcl l hl
    · dsimp only
      rw [List.append_nil]
      exact hcur
  · by_cases hov : p.1.maxWidth < p.1.linePosition + p.1.wordBuffer.length ∧
        0 < p.1.linePosition
    · rw [wrapEnd_eq, wrapEndWord_wrap p he hnotlong hov]
      refine ⟨hm, ?_, ?_, Nat.zero_le m, hwl, hwn⟩
      · intro l hl
        dsimp only at hl
        rw [List.append_nil, List.append_nil,
            show p.2 ++ p.1.lineBuffer ++ ['\n']
              = (p.2 ++ p.1.lineBuffer) ++ ('\n' :: ([] : List Char)) from by simp,
            lineSplit_newline_run _ _ (by simp)] at hl
        rcases List.mem_append.mp hl with h | h
        · exact hcl l h
        · have hl2 : l = (lineSplit (p.2 ++ p.1.lineBuffer)).2 := by simpa using h
          rw [hl2, hcur]; exact hlp
      · dsimp only
        rw [List.append_nil, List.append_nil,
            show p.2 ++ p.1.lineBuffer ++ ['\n']
              = (p.2 ++ p.1.lineBuffer) ++ ('\n' :: ([] : List Char)) from by simp,
            lineSplit_newline_run _ _ (by simp)]
        rfl
    · rw [wrapEnd_eq, wrapEndWord_keep p hnotlong hov]
      refine ⟨hm, ?_, ?_, hlp, hwl, hwn⟩
      · intro l hl
        dsimp only at hl
        rw [List.append_nil] at hl
        exact hcl l hl
      · dsimp only
        rw [List.append_nil]
        exact hcur

lemma lastJ (m : Nat) (p : WrapState × List Char) (hJ : WidthInv m p) :
    ∀ l ∈ linesOf ((wrapEnd p).2 ++ (TextWrapper.flush (wrapEnd p).1).2),
      l.length ≤ m := by
  obtain ⟨hm, hcl, hcur, hlp, hwl, hwn⟩ := hJ
  have hnotlong : ¬ (p.1.maxWidth < p.1.wordBuffer.length) := by rw [hm]; omega
  by_cases he : p.1.wordBuffer = []
  · rw [wrapEnd_eq, wrapEndWord_nil p he]
    intro l hl
    dsimp only [TextWrapper.flush] at hl
    rw [he] at hl
    simp only [List.append_nil, linesOf] at hl
    rcases List.mem_append.mp hl with h | h
    · exact hcl l h
    · have hl2 : l = (lineSplit (p.2 ++ p.1.lineBuffer)).2 := by simpa using h
      rw [hl2, hcur]; exact hlp
  · by_cases hov : p.1.maxWidth < p.1.linePosition + p.1.wordBuffer.length ∧
        0 < p.1.linePosition
    · rw [wrapEnd_eq, wrapEndWord_wrap p he hnotlong hov]
      intro l hl
      dsimp only [TextWrapper.flush] at hl
      simp only [List.append_nil] at hl
      rw [show p.2 ++ p.1.lineBuffer ++ ['\n'] ++ p.1.wordBuffer
            = (p.2 ++ p.1.lineBuffer) ++ ('\n' :: p.1.wordBuffer) from by simp,
          linesOf, lineSplit_newline_run _ _ hwn] at hl
      rcases List.mem_append.mp hl with h | h
      · rcases List.mem_append.mp h with h2 | h2
        · exact hcl l h2
        · have hl2 : l = (lineSplit (p.2 ++ p.1.lineBuffer)).2 := by simpa using h2
          rw [hl2, hcur]; exact hlp
      · have hl2 : l = p.1.wordBuffer := by simpa using h
        rw [hl2]; exact hwl
    · have hsum : p.1.linePosition + p.1.wordBuffer.length ≤ m := by
        by_cases h : p.1.maxWidth < p.1.linePosition + p.1.wordBuffer.length
        · have hlp0 : ¬ 0 < p.1.linePosition := fun hp => hov ⟨h, hp⟩
          omega
        · rw [hm] at h; omega
      rw [wrapEnd_eq, wrapEndWord_keep p hnotlong hov]
      intro l hl
      dsimp only [TextWrapper.flush] at hl
      simp only [List.append_nil] at hl
      rw [linesOf, lineSplit_no_nl_run _ _ hwn] at hl
      rcases List.mem_append.mp hl with h | h
      · exact hcl l h
      · have hl2 : l = (lineSplit (p.2 ++ p.1.lineBuffer)).2 ++ p.1.wordBuffer := by
          simpa using h
        rw [hl2, List.length_append, hcur]
        exact hsum

lemma foldJ (m : Nat) : ∀ (cs : List Char) (p : WrapState × List Char),
    WidthInv m p → '\n' ∉ cs → runsOkB m cs p.1.wordBuffer.length = true →
    WidthInv m (cs.foldl wrapChar p) := by
  intro cs
  induction cs with
  | nil => intro p h _ _; exact h
  | cons c cs ih =>
      intro p h hnl hrun
      have hc : c ≠ '\n' := fun he => hnl (by rw [he]; exact List.mem_cons_self _ _)
      have hcs : '\n' ∉ cs := fun hm2 => hnl (List.mem_cons_of_mem _ hm2)
      simp only [List.foldl_cons]
      by_cases hsp : c = ' '
      · subst hsp
        refine ih _ (stepJ m ' ' p h hc (Or.inl rfl)) hcs ?_
        have hwb0 : (wrapChar p ' ').1.wordBuffer = [] := by
          rw [wrapChar_wordBuffer]; simp
        rw [hwb0]
        simpa [runsOkB] using hrun
      · simp only [runsOkB, if_neg hsp, Bool.and_eq_true, decide_eq_true_eq] at hrun
        refine ih _ (stepJ m c p h hc (Or.inr hrun.1)) hcs ?_
        have hwb1 : (wrapChar p c).1.wordBuffer = p.1.wordBuffer ++ [c] := by
          rw [wrapChar_wordBuffer]; simp [hc, hsp]
        rw [hwb1]
        simpa using hrun.2

lemma runJ (m : Nat) : ∀ (chunks : List (List Char)), chunks ≠ [] →
    ∀ (p : WrapState × List Char), WidthInv m p →
    '\n' ∉ chunks.flatten → runsOkB m chunks.flatten p.1.wordBuffer.length = true →
    ∀ l ∈ linesOf (runTotalB p chunks), l.length ≤ m := by
  intro chunks
  induction chunks with
  | nil => intro h; exact absurd rfl h
  | cons f fs ih =>
      intro _ p h hnl hrun
      rw [List.flatten_cons] at hnl hrun
      have hnlf : '\n' ∉ f := fun hm2 => hnl (List.mem_append_left _ hm2)
      have hnlfs : '\n' ∉ fs.flatten := fun hm2 => hnl (List.mem_append_right _ hm2)
      rw [runsOkB_append] at hrun
      simp only [Bool.and_eq_true] at hrun
      have hfold := foldJ m f p h hnlf hrun.1
      by_cases hfs : fs = []
      · subst hfs
        show ∀ l ∈ linesOf (runTotalB (wrapEnd (f.foldl wrapChar p)) []),
            l.length ≤ m
        simp only [runTotalB, runPairs]
        exact lastJ m _ hfold
      · have hend := endJ m _ hfold
        have hctr := foldl_wordBuffer f p hnlf
        have hwbk : (wrapEnd (f.foldl wrapChar p)).1.wordBuffer
            = (f.foldl wrapChar p).1.wordBuffer :=
          wrapEnd_keeps_word _ (by rw [hfold.1]; exact hfold.2.2.2.2.1)
        show ∀ l ∈ linesOf (runTotalB (wrapEnd (f.foldl wrapChar p)) fs),
            l.length ≤ m
        refine ih hfs _ hend hnlfs ?_
        rw [hwbk, hctr]
        exact hrun.2

lemma emittedAll_eq_runTotalB (w : Nat) (frags : List (List Char)) :
    emittedAll w frags = runTotalB (mkWrapper w 0, []) frags := by
  simp only [emittedAll, runTotalB, feedAll_runPairs]
  simp

/-- C4 amended: for chunk sequences containing no newline and whose maximal
non-space runs are all within `maxWidth`, every emitted display line of the
whole run (chunks plus final flush) has length at most `maxWidth`. -/
theorem width_bound_restricted (w : Nat) (chunks : List (List Char))
    (hnl : '\n' ∉ chunks.flatten)
    (hrun : runsOkB (mkWrapper w 0).maxWidth chunks.flatten 0 = true) :
    ∀ l ∈ linesOf (emittedAll w chunks), l.length ≤ (mkWrapper w 0).maxWidth := by
  by_cases hchunks : chunks = []
  · subst hchunks
    intro l hl
    have h1 : emittedAll w [] = [] := rfl
    rw [h1] at hl
    have h2 : linesOf [] = [[]] := rfl
    rw [h2] at hl
    simp at hl
    subst hl
    simp
  · have h0 : WidthInv (mkWrapper w 0).maxWidth (mkWrapper w 0, ([] : List Char)) := by
      refine ⟨rfl, ?_, rfl, Nat.zero_le _, Nat.zero_le _, by simp [mkWrapper]⟩
      intro l hl
      simp [lineSplit, mkWrapper] at hl
    rw [emittedAll_eq_runTotalB]
    exact runJ (mkWrapper w 0).maxWidth chunks hchunks _ h0 hnl hrun

/-- Witness instantiating the hypotheses of the amended C4 theorem at a
concrete newline-free short-word stream. -/
theorem width_bound_restricted_witness :
    ("hi there".toList).length ≤ (mkWrapper 80 0).maxWidth :=
  width_bound_restricted 80 ["hi there".toList] (by decide) (by decide)
    ("hi there".toList) (by decide)
